import Mathlib

/-!
Verification of the process-scheduling simulator `scheduling.c`.

The C program keeps three global structures: the master list of all
processes (`table`, linked by `tableNext`), the ready queue (a singly
linked list rooted at `head`, linked by `next`), and the running slot
(`running`).  All three alias the same `struct Node` cells.  We embed the
state as the master table (a `List Proc`, index = identity of the node)
together with a list of indices for the ready queue and an optional index
for the running slot, so the aliasing of the C lists is represented
exactly: mutating a node is updating the table at its index.

The intrusive `next` pointers are represented by the index list itself.
The only place this needs care is the `head == NULL` branch of `enqueue`,
which does not clear `node->next`; in every call the program makes in that
situation the `next` field of the node is already `NULL` (a freshly
arrived node, or a node whose dequeue left an empty queue), so the branch
yields the one-element queue, which is what the embedding returns.
-/

namespace Scheduling

/-- `#define Q 10` — time quantum used by the scheduler. -/
def Q : Int := 10

/-- `#define N 96` — length of the processing time period. -/
def N : Nat := 96

/-- `struct Node` without the two intrusive link pointers (represented by
the index lists of `SchedState`) and without the `id` string, which the
simulation never reads (it is only printed). -/
structure Proc where
  priority : Int
  burst : Int
  arrival : Int
  timeLeft : Int
  turnaround : Int
  wait : Int
  quantum : Int
deriving DecidableEq

instance : Inhabited Proc := ⟨⟨0, 0, 0, 0, 0, 0, 0⟩⟩

/-- `newNode(i, p, b, a)`: a fresh record with `timeLeft = burst` and all
counters zero (lines 40-57). -/
def newNode (p b a : Int) : Proc :=
  { priority := p, burst := b, arrival := a, timeLeft := b,
    turnaround := 0, wait := 0, quantum := 0 }

/-- Dereference a node index in the master table. -/
def getP (tbl : List Proc) (n : Nat) : Proc := tbl.getD n default

/-- Mutate the node a given index points to. -/
def modP (tbl : List Proc) (n : Nat) (f : Proc → Proc) : List Proc :=
  tbl.set n (f (getP tbl n))

/-- The three scheduler globals: master table, ready queue (`head`),
running slot (`running`). -/
structure SchedState where
  table : List Proc
  queue : List Nat
  running : Option Nat
deriving DecidableEq

/-- The insertion walk of `enqueue` (lines 154-162): starting from the
node after `head`, advance `nav` while `nav->next != NULL &&
nav->next->priority <= node->priority && node->quantum == 0`, then splice
the node in after `nav`.  The argument list is the part of the queue after
`nav`; splicing after the final `nav` inserts the node before the
remainder of that list. -/
def walkIns (tbl : List Proc) (node : Proc) (n : Nat) : List Nat → List Nat
  | [] => [n]
  | h :: t =>
    if (getP tbl h).priority ≤ node.priority ∧ node.quantum = 0 then
      h :: walkIns tbl node n t
    else
      n :: h :: t

/-- The placement part of `enqueue` (lines 136-163), after quantum
normalization: `node` is the (already normalized) record of index `n`. -/
def enqueueQ (tbl : List Proc) (node : Proc) (n : Nat) : List Nat → List Nat
  | [] => [n]
  | h :: t =>
    if node.priority > (getP tbl h).priority then
      n :: h :: t
    else if node.priority = (getP tbl h).priority then
      if node.quantum ≠ 0 then n :: h :: t else h :: n :: t
    else
      h :: walkIns tbl node n t

/-- `enqueue(node)` (lines 126-164): first reset the quantum of the node
if it is `>= Q`, then place the index into the queue list. -/
def enqueue (tbl : List Proc) (qu : List Nat) (n : Nat) : List Proc × List Nat :=
  let tbl' := if (getP tbl n).quantum ≥ Q then
      modP tbl n (fun p => { p with quantum := 0 })
    else tbl
  (tbl', enqueueQ tbl' (getP tbl' n) n qu)

/-- `dequeue()` (lines 170-176): move the queue head (possibly `NULL`)
into the running slot. -/
def dequeue (qu : List Nat) : List Nat × Option Nat :=
  match qu with
  | [] => ([], none)
  | h :: t => (t, some h)

/-- `quantumCheck()` (lines 185-198). -/
def quantumCheck (s : SchedState) : SchedState :=
  match s.running with
  | none => s
  | some r =>
    if (getP s.table r).timeLeft = 0 then
      let p := dequeue s.queue
      ⟨s.table, p.1, p.2⟩
    else if (getP s.table r).quantum = Q then
      let e := enqueue s.table s.queue r
      let p := dequeue e.2
      ⟨e.1, p.1, p.2⟩
    else s

/-- The per-tick update of the running node (lines 206-210). -/
def bumpRun (p : Proc) : Proc :=
  { p with quantum := p.quantum + 1, timeLeft := p.timeLeft - 1,
           turnaround := p.turnaround + 1 }

/-- The per-tick update of a queued node (lines 213-216). -/
def bumpWait (p : Proc) : Proc :=
  { p with wait := p.wait + 1, turnaround := p.turnaround + 1 }

/-- The walk over the ready queue in `stepProcesses` (lines 212-217). -/
def foldWait (tb : List Proc) (l : List Nat) : List Proc :=
  l.foldl (fun t i => modP t i bumpWait) tb

/-- `stepProcesses()` (lines 204-218). -/
def stepProcesses (s : SchedState) : SchedState :=
  let tbl1 := match s.running with
    | some r => modP s.table r bumpRun
    | none => s.table
  ⟨foldWait tbl1 s.queue, s.queue, s.running⟩

/-- The arrival-preemption branch taken when `running->quantum == 0 ||
running->quantum == 10` (lines 292-301): discard the running node if its
`timeLeft <= 0`, otherwise re-enqueue it; the arriving index `i` becomes
running. -/
def preemptBranchA (s : SchedState) (r i : Nat) : SchedState :=
  if (getP s.table r).timeLeft ≤ 0 then
    ⟨s.table, s.queue, some i⟩
  else
    let e := enqueue s.table s.queue r
    ⟨e.1, e.2, some i⟩

/-- The other arrival-preemption branch (lines 302-308): print a context
switch message, re-enqueue the running node, and make the arriving index
`i` running. -/
def preemptBranchB (s : SchedState) (r i : Nat) : SchedState :=
  let e := enqueue s.table s.queue r
  ⟨e.1, e.2, some i⟩

/-- The body of the arrival check for one arriving node `i` (lines
283-315). -/
def handleArrival (s : SchedState) (i : Nat) : SchedState :=
  match s.running with
  | none => ⟨s.table, s.queue, some i⟩
  | some r =>
    if (getP s.table i).priority > (getP s.table r).priority then
      if (getP s.table r).quantum = 0 ∨ (getP s.table r).quantum = 10 then
        preemptBranchA s r i
      else
        preemptBranchB s r i
    else
      let e := enqueue s.table s.queue i
      ⟨e.1, e.2, s.running⟩

/-- One iteration of the arrival scan (lines 274-320): if node `i` arrives
at tick `t`, handle it and raise the flag. -/
def scanStep (t : Int) (acc : SchedState × Bool) (i : Nat) : SchedState × Bool :=
  if (getP acc.1.table i).arrival = t then (handleArrival acc.1 i, true) else acc

/-- The arrival scan over the whole master table at tick `t`. -/
def scanArrivals (s : SchedState) (t : Int) : SchedState × Bool :=
  (List.range s.table.length).foldl (scanStep t) (s, false)

/-- One iteration of the main simulation loop (lines 268-330): scan
arrivals, run `quantumCheck` only when no process arrived, then
`stepProcesses`. -/
def tick (s : SchedState) (t : Int) : SchedState :=
  stepProcesses
    (if (scanArrivals s t).2 then (scanArrivals s t).1
     else quantumCheck (scanArrivals s t).1)

/-- The state after `readFile`: all processes created by `newNode` in
input order (as `(priority, burst, arrival)` triples), queue and running
slot empty (lines 252-264). -/
def initState (inputs : List (Int × Int × Int)) : SchedState :=
  ⟨inputs.map (fun x => newNode x.1 x.2.1 x.2.2), [], none⟩

/-- The state after `k` iterations of the main loop. -/
def simFrom (inputs : List (Int × Int × Int)) : Nat → SchedState
  | 0 => initState inputs
  | k + 1 => tick (simFrom inputs k) (Int.ofNat k)

/-- The final state, as read by `output()` (the loop runs `t = 0..N-1`). -/
def simulate (inputs : List (Int × Int × Int)) : SchedState := simFrom inputs N

/-- The indices a scheduler structure currently holds: the ready queue
followed by the running slot. -/
def activeL (s : SchedState) : List Nat := s.queue ++ s.running.toList

/-- The ready queue is sorted by non-increasing priority: the priority of
every entry is `≥` that of every later entry. -/
def queueSorted (s : SchedState) : Prop :=
  s.queue.Pairwise (fun i j => (getP s.table j).priority ≤ (getP s.table i).priority)

/-- Four processes with strictly decreasing priorities arriving on
consecutive ticks: `(priority, burst, arrival)` triples. -/
def input4 : List (Int × Int × Int) := [(6, 50, 0), (5, 50, 1), (4, 50, 2), (3, 50, 3)]

/-- A short process followed by a higher-priority process that arrives on
the exact tick the first one finishes (its burst 5 is not a multiple of
`Q`, so its quantum is then 5). -/
def inputAB : List (Int × Int × Int) := [(1, 5, 0), (2, 20, 5)]

/-- A long process whose quantum reaches `Q` on the same tick a second,
lower-priority process arrives, so `quantumCheck` is skipped. -/
def inputQ : List (Int × Int × Int) := [(5, 30, 0), (1, 5, 10)]

/-- Three fresh processes with priorities 5, 4 and 3. -/
def tblC4 : List Proc := [newNode 5 20 0, newNode 4 20 0, newNode 3 20 0]

/-- Two processes of equal priority; the second has run a full slice
(`quantum = 10`, half of its burst left). -/
def tblC3 : List Proc :=
  [newNode 3 20 0, { newNode 3 20 0 with quantum := 10, timeLeft := 10 }]

/-- A state whose running node (index 0) has finished (`timeLeft = 0`)
mid-slice (`quantum = 5`), with an empty ready queue. -/
def stateC9 : SchedState :=
  ⟨[{ newNode 1 5 0 with timeLeft := 0, turnaround := 5, quantum := 5 }], [], some 0⟩

/-- A single process that arrives only after the simulation horizon. -/
def inputLate : List (Int × Int × Int) := [(1, 5, 100)]

/-- A single process that arrives at tick 0. -/
def inputLate2 : List (Int × Int × Int) := [(1, 5, 0)]

/-- Two processes of equal priority; the second was preempted mid-slice
(`quantum = 2`). -/
def tblC3W : List Proc :=
  [newNode 3 20 0, { newNode 3 20 0 with quantum := 2, timeLeft := 10 }]

/-- A state whose running node (index 0) still has work left. -/
def stateC9pos : SchedState :=
  ⟨[{ newNode 1 5 0 with timeLeft := 3, turnaround := 2, quantum := 2 }], [], some 0⟩

/-- Invariant of the scheduler state, relative to the initial master table
`tbl0`, holding whenever every arrival processed so far happened at a tick
`≤ t`: the structures hold only in-range indices of processes that have
arrived, no index is held twice, processes that have not arrived (or whose
arrival is negative and hence never matches a tick) are untouched and not
held, every queued process has a normalized quantum in `[0, Q)`, no
quantum is ever negative, and arrival fields are never written. -/
structure MidInv (tbl0 : List Proc) (t : Int) (s : SchedState) : Prop where
  len_eq : s.table.length = tbl0.length
  act_lt : ∀ i ∈ activeL s, i < tbl0.length
  act_arr : ∀ i ∈ activeL s, 0 ≤ (getP s.table i).arrival ∧ (getP s.table i).arrival ≤ t
  nodup : (activeL s).Nodup
  fresh : ∀ i, i < tbl0.length →
    ((getP tbl0 i).arrival < 0 ∨ t < (getP tbl0 i).arrival) →
    getP s.table i = getP tbl0 i ∧ i ∉ activeL s
  qbound : ∀ i ∈ s.queue,
    0 ≤ (getP s.table i).quantum ∧ (getP s.table i).quantum < Q
  qnonneg : ∀ m, 0 ≤ (getP s.table m).quantum
  arr_stable : ∀ m, (getP s.table m).arrival = (getP tbl0 m).arrival

/-- During the arrival scan at tick `t`: every held index whose process
arrives exactly at `t` has already been scanned (it is not among the
remaining indices `js`). -/
def ScanP (t : Int) (js : List Nat) (s : SchedState) : Prop :=
  ∀ j ∈ activeL s, (getP s.table j).arrival = t → j ∉ js

theorem getP_set (tbl : List Proc) (n m : Nat) (p : Proc) :
    getP (tbl.set n p) m = if m = n ∧ m < tbl.length then p else getP tbl m := by
  induction tbl generalizing n m with
  | nil => simp [getP]
  | cons a t ih =>
    cases n with
    | zero =>
      cases m with
      | zero => simp [getP]
      | succ m => simp [getP]
    | succ n =>
      cases m with
      | zero => simp [getP]
      | succ m => simpa [getP, Nat.succ_lt_succ_iff] using ih n m

theorem length_modP (tbl : List Proc) (n : Nat) (f : Proc → Proc) :
    (modP tbl n f).length = tbl.length := by
  simp [modP]

theorem getP_modP (tbl : List Proc) (n m : Nat) (f : Proc → Proc) :
    getP (modP tbl n f) m =
      if m = n ∧ m < tbl.length then f (getP tbl n) else getP tbl m := by
  rw [modP, getP_set]

theorem enqueue_fst (tbl : List Proc) (qu : List Nat) (n : Nat) :
    (enqueue tbl qu n).1 =
      if (getP tbl n).quantum ≥ Q then
        modP tbl n (fun p => { p with quantum := 0 })
      else tbl := rfl

theorem enqueue_snd (tbl : List Proc) (qu : List Nat) (n : Nat) :
    (enqueue tbl qu n).2 =
      enqueueQ (enqueue tbl qu n).1 (getP (enqueue tbl qu n).1 n) n qu := rfl

theorem enqueue_length (tbl : List Proc) (qu : List Nat) (n : Nat) :
    (enqueue tbl qu n).1.length = tbl.length := by
  rw [enqueue_fst]
  split
  · exact length_modP tbl n _
  · rfl

theorem getP_enqueue_fst (tbl : List Proc) (qu : List Nat) (n m : Nat) :
    getP (enqueue tbl qu n).1 m =
      if m = n ∧ m < tbl.length ∧ (getP tbl n).quantum ≥ Q then
        { getP tbl n with quantum := 0 }
      else getP tbl m := by
  rw [enqueue_fst]
  by_cases hq : (getP tbl n).quantum ≥ Q
  · rw [if_pos hq, getP_modP]
    by_cases hm : m = n ∧ m < tbl.length
    · rw [if_pos hm, if_pos ⟨hm.1, hm.2, hq⟩]
    · rw [if_neg hm, if_neg (by tauto)]
  · rw [if_neg hq, if_neg (by tauto)]

theorem getP_enqueue_fst_ne (tbl : List Proc) (qu : List Nat) (n m : Nat)
    (h : m ≠ n) : getP (enqueue tbl qu n).1 m = getP tbl m := by
  rw [getP_enqueue_fst, if_neg (by tauto)]

theorem enqueue_fst_arrival (tbl : List Proc) (qu : List Nat) (n m : Nat) :
    (getP (enqueue tbl qu n).1 m).arrival = (getP tbl m).arrival := by
  rw [getP_enqueue_fst]
  split
  · rename_i h
    rw [h.1]
  · rfl

theorem enqueue_fst_priority (tbl : List Proc) (qu : List Nat) (n m : Nat) :
    (getP (enqueue tbl qu n).1 m).priority = (getP tbl m).priority := by
  rw [getP_enqueue_fst]
  split
  · rename_i h
    rw [h.1]
  · rfl

theorem enqueue_quantum_bound (tbl : List Proc) (qu : List Nat) (n : Nat)
    (h0 : 0 ≤ (getP tbl n).quantum) (hn : n < tbl.length) :
    0 ≤ (getP (enqueue tbl qu n).1 n).quantum ∧
      (getP (enqueue tbl qu n).1 n).quantum < Q := by
  rw [getP_enqueue_fst]
  by_cases hq : (getP tbl n).quantum ≥ Q
  · rw [if_pos ⟨rfl, hn, hq⟩]
    exact ⟨le_refl 0, by norm_num [Q]⟩
  · rw [if_neg (by tauto)]
    exact ⟨h0, lt_of_not_ge hq⟩

theorem enqueue_fst_quantum_nonneg (tbl : List Proc) (qu : List Nat) (n : Nat)
    (h : ∀ m, 0 ≤ (getP tbl m).quantum) (m : Nat) :
    0 ≤ (getP (enqueue tbl qu n).1 m).quantum := by
  rw [getP_enqueue_fst]
  split
  · exact le_refl 0
  · exact h m

theorem walkIns_perm (tbl : List Proc) (node : Proc) (n : Nat) (l : List Nat) :
    List.Perm (walkIns tbl node n l) (n :: l) := by
  induction l with
  | nil => exact List.Perm.refl _
  | cons h t ih =>
    rw [walkIns]
    split
    · exact (ih.cons h).trans (List.Perm.swap n h t)
    · exact List.Perm.refl _

theorem enqueueQ_perm (tbl : List Proc) (node : Proc) (n : Nat) (qu : List Nat) :
    List.Perm (enqueueQ tbl node n qu) (n :: qu) := by
  cases qu with
  | nil => exact List.Perm.refl _
  | cons h t =>
    rw [enqueueQ]
    split
    · exact List.Perm.refl _
    · split
      · split
        · exact List.Perm.refl _
        · exact List.Perm.swap n h t
      · exact ((walkIns_perm tbl node n t).cons h).trans (List.Perm.swap n h t)

theorem enqueue_snd_perm (tbl : List Proc) (qu : List Nat) (n : Nat) :
    List.Perm (enqueue tbl qu n).2 (n :: qu) :=
  enqueueQ_perm _ _ n qu

theorem mem_enqueue_snd (tbl : List Proc) (qu : List Nat) (n m : Nat) :
    m ∈ (enqueue tbl qu n).2 ↔ m = n ∨ m ∈ qu := by
  rw [(enqueue_snd_perm tbl qu n).mem_iff]
  simp

theorem nodup_enqueue_snd (tbl : List Proc) (qu : List Nat) (n : Nat)
    (h : n ∉ qu) (hd : qu.Nodup) : (enqueue tbl qu n).2.Nodup :=
  (enqueue_snd_perm tbl qu n).nodup_iff.mpr (List.nodup_cons.mpr ⟨h, hd⟩)

theorem foldWait_cons (tb : List Proc) (i : Nat) (t : List Nat) :
    foldWait tb (i :: t) = foldWait (modP tb i bumpWait) t := rfl

theorem foldWait_length (l : List Nat) (tb : List Proc) :
    (foldWait tb l).length = tb.length := by
  induction l generalizing tb with
  | nil => rfl
  | cons i t ih => rw [foldWait_cons, ih, length_modP]

theorem foldWait_frame (l : List Nat) (tb : List Proc) (m : Nat) :
    (getP (foldWait tb l) m).priority = (getP tb m).priority ∧
    (getP (foldWait tb l) m).arrival = (getP tb m).arrival ∧
    (getP (foldWait tb l) m).quantum = (getP tb m).quantum ∧
    (getP (foldWait tb l) m).timeLeft = (getP tb m).timeLeft := by
  induction l generalizing tb with
  | nil => exact ⟨rfl, rfl, rfl, rfl⟩
  | cons i t ih =>
    rw [foldWait_cons]
    obtain ⟨h1, h2, h3, h4⟩ := ih (modP tb i bumpWait)
    rw [h1, h2, h3, h4, getP_modP]
    split
    · rename_i hc
      rw [hc.1]
      exact ⟨rfl, rfl, rfl, rfl⟩
    · exact ⟨rfl, rfl, rfl, rfl⟩

theorem foldWait_not_mem (l : List Nat) (tb : List Proc) (m : Nat) (h : m ∉ l) :
    getP (foldWait tb l) m = getP tb m := by
  induction l generalizing tb with
  | nil => rfl
  | cons i t ih =>
    rw [foldWait_cons, ih _ (fun hm => h (List.mem_cons_of_mem i hm)), getP_modP,
      if_neg]
    intro hc
    exact h (by rw [hc.1]; exact List.mem_cons_self i t)

theorem stepProcesses_queue (s : SchedState) : (stepProcesses s).queue = s.queue := rfl

theorem stepProcesses_running (s : SchedState) :
    (stepProcesses s).running = s.running := rfl

theorem activeL_stepProcesses (s : SchedState) :
    activeL (stepProcesses s) = activeL s := rfl

theorem stepProcesses_table (s : SchedState) :
    (stepProcesses s).table =
      foldWait (match s.running with
        | some r => modP s.table r bumpRun
        | none => s.table) s.queue := rfl

theorem stepProcesses_length (s : SchedState) :
    (stepProcesses s).table.length = s.table.length := by
  rw [stepProcesses_table]
  cases s.running
  · rw [foldWait_length]
  · rw [foldWait_length, length_modP]

theorem stepProcesses_arrival (s : SchedState) (m : Nat) :
    (getP (stepProcesses s).table m).arrival = (getP s.table m).arrival := by
  rw [stepProcesses_table]
  cases hr : s.running with
  | none => exact (foldWait_frame _ _ m).2.1
  | some r =>
    rw [(foldWait_frame _ _ m).2.1, getP_modP]
    split
    · rename_i hc
      rw [hc.1]
      rfl
    · rfl

theorem stepProcesses_quantum_ne (s : SchedState) (m : Nat)
    (h : s.running ≠ some m) :
    (getP (stepProcesses s).table m).quantum = (getP s.table m).quantum := by
  rw [stepProcesses_table]
  cases hr : s.running with
  | none => exact (foldWait_frame _ _ m).2.2.1
  | some r =>
    rw [(foldWait_frame _ _ m).2.2.1, getP_modP, if_neg]
    intro hc
    exact h (hr.trans (by rw [hc.1]))

theorem stepProcesses_quantum_cases (s : SchedState) (m : Nat) :
    (getP (stepProcesses s).table m).quantum = (getP s.table m).quantum ∨
    (getP (stepProcesses s).table m).quantum = (getP s.table m).quantum + 1 := by
  rw [stepProcesses_table]
  cases hr : s.running with
  | none => exact Or.inl (foldWait_frame _ _ m).2.2.1
  | some r =>
    rw [(foldWait_frame _ _ m).2.2.1, getP_modP]
    split
    · rename_i hc
      right
      rw [hc.1]
      rfl
    · left
      rfl

theorem stepProcesses_not_active (s : SchedState) (m : Nat)
    (h : m ∉ activeL s) : getP (stepProcesses s).table m = getP s.table m := by
  have hq : m ∉ s.queue := fun hm => h (List.mem_append_left _ hm)
  rw [stepProcesses_table]
  cases hr : s.running with
  | none => exact foldWait_not_mem _ _ m hq
  | some r =>
    rw [foldWait_not_mem _ _ m hq, getP_modP, if_neg]
    intro hc
    apply h
    have hact : activeL s = s.queue ++ [r] := by rw [activeL, hr]; rfl
    rw [hact]
    exact List.mem_append_right _ (by rw [hc.1]; exact List.mem_singleton_self r)

theorem MidInv.queue_nodup {tbl0 : List Proc} {t : Int} {s : SchedState}
    (h : MidInv tbl0 t s) : s.queue.Nodup :=
  (List.nodup_append.mp h.nodup).1

theorem MidInv.run_not_mem {tbl0 : List Proc} {t : Int} {s : SchedState}
    (h : MidInv tbl0 t s) (r : Nat) (hr : s.running = some r) : r ∉ s.queue := by
  have hact : activeL s = s.queue ++ [r] := by rw [activeL, hr]; rfl
  have hnd := h.nodup
  rw [hact, List.nodup_append] at hnd
  exact fun hm => (hnd.2.2 hm) (List.mem_singleton_self r)

theorem MidInv.run_mem_active {tbl0 : List Proc} {t : Int} {s : SchedState}
    (_h : MidInv tbl0 t s) (r : Nat) (hr : s.running = some r) : r ∈ activeL s := by
  have hact : activeL s = s.queue ++ [r] := by rw [activeL, hr]; rfl
  rw [hact]
  exact List.mem_append_right _ (List.mem_singleton_self r)

theorem MidInv.mono {tbl0 : List Proc} {t1 t2 : Int} {s : SchedState}
    (h : MidInv tbl0 t1 s) (ht : t1 ≤ t2) : MidInv tbl0 t2 s where
  len_eq := h.len_eq
  act_lt := h.act_lt
  act_arr := fun i hi => ⟨(h.act_arr i hi).1, le_trans (h.act_arr i hi).2 ht⟩
  nodup := h.nodup
  fresh := fun i hl hc => h.fresh i hl (by
    cases hc with
    | inl hc => exact Or.inl hc
    | inr hc => exact Or.inr (lt_of_le_of_lt ht hc))
  qbound := h.qbound
  qnonneg := h.qnonneg
  arr_stable := h.arr_stable

theorem midInv_tbl_same (tbl0 : List Proc) (t : Int) (s : SchedState)
    (h : MidInv tbl0 t s) (i : Nat) (qu' : List Nat) (run' : Option Nat)
    (hi : i ∈ qu' ++ run'.toList →
      i < tbl0.length ∧ 0 ≤ (getP s.table i).arrival ∧ (getP s.table i).arrival ≤ t)
    (hok : ∀ j ∈ qu' ++ run'.toList, j = i ∨ j ∈ activeL s)
    (hnd : (qu' ++ run'.toList).Nodup)
    (hq : ∀ j ∈ qu', j ∈ s.queue) :
    MidInv tbl0 t ⟨s.table, qu', run'⟩ where
  len_eq := h.len_eq
  act_lt := fun j hj => by
    rcases hok j hj with rfl | hj2
    · exact (hi hj).1
    · exact h.act_lt j hj2
  act_arr := fun j hj => by
    rcases hok j hj with rfl | hj2
    · exact (hi hj).2
    · exact h.act_arr j hj2
  nodup := hnd
  fresh := fun j hl hc => by
    obtain ⟨hu, hna⟩ := h.fresh j hl hc
    refine ⟨hu, fun hj => ?_⟩
    rcases hok j hj with rfl | hj2
    · have h2 := (hi hj).2
      rw [h.arr_stable j] at h2
      rcases hc with hc | hc <;> omega
    · exact hna hj2
  qbound := fun j hj => h.qbound j (hq j hj)
  qnonneg := h.qnonneg
  arr_stable := h.arr_stable

theorem midInv_enq (tbl0 : List Proc) (t : Int) (s : SchedState)
    (h : MidInv tbl0 t s) (n i : Nat) (qu' : List Nat) (run' : Option Nat)
    (hn_lt : n < tbl0.length)
    (hn_arr : 0 ≤ (getP s.table n).arrival ∧ (getP s.table n).arrival ≤ t)
    (hi : i ∈ qu' ++ run'.toList →
      i < tbl0.length ∧ 0 ≤ (getP s.table i).arrival ∧ (getP s.table i).arrival ≤ t)
    (hok : ∀ j ∈ qu' ++ run'.toList, j = n ∨ j = i ∨ j ∈ activeL s)
    (hnd : (qu' ++ run'.toList).Nodup)
    (hq : ∀ j ∈ qu', j = n ∨ j ∈ s.queue) :
    MidInv tbl0 t ⟨(enqueue s.table s.queue n).1, qu', run'⟩ where
  len_eq := (enqueue_length s.table s.queue n).trans h.len_eq
  act_lt := fun j hj => by
    rcases hok j hj with rfl | rfl | hj2
    · exact hn_lt
    · exact (hi hj).1
    · exact h.act_lt j hj2
  act_arr := fun j hj => by
    rw [enqueue_fst_arrival s.table s.queue n j]
    rcases hok j hj with rfl | rfl | hj2
    · exact hn_arr
    · exact (hi hj).2
    · exact h.act_arr j hj2
  nodup := hnd
  fresh := fun j hl hc => by
    obtain ⟨hu, hna⟩ := h.fresh j hl hc
    have hjn : j ≠ n := by
      intro hjn
      have h2 := hn_arr
      rw [h.arr_stable n] at h2
      rw [hjn] at hc
      rcases hc with hc | hc <;> omega
    refine ⟨?_, fun hj => ?_⟩
    · rw [getP_enqueue_fst_ne s.table s.queue n j hjn]
      exact hu
    · rcases hok j hj with rfl | rfl | hj2
      · exact hjn rfl
      · have h2 := (hi hj).2
        rw [h.arr_stable j] at h2
        rcases hc with hc | hc <;> omega
      · exact hna hj2
  qbound := fun j hj => by
    by_cases hjn : j = n
    · subst hjn
      exact enqueue_quantum_bound s.table s.queue j (h.qnonneg j)
        (by rw [h.len_eq]; exact hn_lt)
    · rw [getP_enqueue_fst_ne s.table s.queue n j hjn]
      rcases hq j hj with rfl | hj2
      · exact absurd rfl hjn
      · exact h.qbound j hj2
  qnonneg := fun m => enqueue_fst_quantum_nonneg s.table s.queue n h.qnonneg m
  arr_stable := fun m => by
    rw [enqueue_fst_arrival s.table s.queue n m]
    exact h.arr_stable m

theorem quantumCheck_inv (tbl0 : List Proc) (t : Int) (s : SchedState)
    (h : MidInv tbl0 t s) : MidInv tbl0 t (quantumCheck s) := by
  cases hr : s.running with
  | none => simpa only [quantumCheck, hr] using h
  | some r =>
    by_cases h1 : (getP s.table r).timeLeft = 0
    · cases hqu : s.queue with
      | nil =>
        have heq : quantumCheck s = ⟨s.table, [], none⟩ := by
          simp only [quantumCheck, hr]
          rw [if_pos h1, hqu]
          rfl
        rw [heq]
        exact midInv_tbl_same tbl0 t s h r [] none
          (fun hmem => absurd hmem (by simp))
          (fun j hj => absurd hj (by simp))
          (by simp)
          (fun j hj => absurd hj (by simp))
      | cons hd tl =>
        have heq : quantumCheck s = ⟨s.table, tl, some hd⟩ := by
          simp only [quantumCheck, hr]
          rw [if_pos h1, hqu]
          rfl
        rw [heq]
        have hdq : hd ∈ s.queue := by rw [hqu]; exact List.mem_cons_self hd tl
        have hda : hd ∈ activeL s := List.mem_append_left _ hdq
        apply midInv_tbl_same tbl0 t s h hd tl (some hd)
        · intro _
          exact ⟨h.act_lt hd hda, h.act_arr hd hda⟩
        · intro j hj
          right
          rcases List.mem_append.mp hj with hj2 | hj2
          · exact List.mem_append_left _
              (by rw [hqu]; exact List.mem_cons_of_mem hd hj2)
          · have hjhd : j = hd := by simpa using hj2
            rw [hjhd]
            exact hda
        · have hnd : (hd :: tl).Nodup := by
            rw [← hqu]
            exact h.queue_nodup
          exact ((List.perm_append_singleton hd tl).nodup_iff).mpr hnd
        · intro j hj
          rw [hqu]
          exact List.mem_cons_of_mem hd hj
    · by_cases h2 : (getP s.table r).quantum = Q
      · have hper := enqueue_snd_perm s.table s.queue r
        cases he : (enqueue s.table s.queue r).2 with
        | nil =>
          exfalso
          rw [he] at hper
          have := hper.length_eq
          simp at this
        | cons hd tl =>
          have heq : quantumCheck s =
              ⟨(enqueue s.table s.queue r).1, tl, some hd⟩ := by
            simp only [quantumCheck, hr]
            rw [if_neg h1, if_pos h2, he]
            rfl
          rw [heq]
          have hr_q : r ∉ s.queue := h.run_not_mem r hr
          have hr_act : r ∈ activeL s := h.run_mem_active r hr
          have hmemE : ∀ j, j ∈ hd :: tl → j = r ∨ j ∈ s.queue := by
            intro j hj
            rw [← he] at hj
            exact (mem_enqueue_snd s.table s.queue r j).mp hj
          have hcert : ∀ j, j = r ∨ j ∈ s.queue →
              j < tbl0.length ∧ 0 ≤ (getP s.table j).arrival ∧
                (getP s.table j).arrival ≤ t := by
            intro j hj
            rcases hj with rfl | hj2
            · exact ⟨h.act_lt j hr_act, h.act_arr j hr_act⟩
            · have hja : j ∈ activeL s := List.mem_append_left _ hj2
              exact ⟨h.act_lt j hja, h.act_arr j hja⟩
          apply midInv_enq tbl0 t s h r hd tl (some hd)
          · exact (hcert r (Or.inl rfl)).1
          · exact (hcert r (Or.inl rfl)).2
          · intro _
            exact hcert hd (hmemE hd (List.mem_cons_self hd tl))
          · intro j hj
            rcases List.mem_append.mp hj with hj2 | hj2
            · rcases hmemE j (List.mem_cons_of_mem hd hj2) with rfl | hj3
              · exact Or.inl rfl
              · exact Or.inr (Or.inr (List.mem_append_left _ hj3))
            · exact Or.inr (Or.inl (by simpa using hj2))
          · have hndE : (hd :: tl).Nodup := by
              rw [← he]
              exact nodup_enqueue_snd s.table s.queue r hr_q h.queue_nodup
            exact ((List.perm_append_singleton hd tl).nodup_iff).mpr hndE
          · intro j hj
            exact hmemE j (List.mem_cons_of_mem hd hj)
      · have heq : quantumCheck s = s := by
          simp only [quantumCheck, hr]
          rw [if_neg h1, if_neg h2]
        rw [heq]
        exact h

theorem handleArrival_inv (tbl0 : List Proc) (t : Int) (s : SchedState) (i : Nat)
    (h : MidInv tbl0 t s) (hi_act : i ∉ activeL s) (hi_lt : i < tbl0.length)
    (hi_arr : (getP s.table i).arrival = t) (ht : 0 ≤ t) :
    MidInv tbl0 t (handleArrival s i) ∧
      ∀ j ∈ activeL (handleArrival s i), j = i ∨ j ∈ activeL s := by
  have hi_bound : 0 ≤ (getP s.table i).arrival ∧ (getP s.table i).arrival ≤ t := by
    rw [hi_arr]
    exact ⟨ht, le_refl t⟩
  have hi_q : i ∉ s.queue := fun hm => hi_act (List.mem_append_left _ hm)
  have hNew : MidInv tbl0 t ⟨s.table, s.queue, some i⟩ ∧
      ∀ j ∈ (s.queue ++ (some i : Option Nat).toList), j = i ∨ j ∈ activeL s := by
    constructor
    · apply midInv_tbl_same tbl0 t s h i s.queue (some i)
      · intro _
        exact ⟨hi_lt, hi_bound⟩
      · intro j hj
        rcases List.mem_append.mp hj with hj2 | hj2
        · exact Or.inr (List.mem_append_left _ hj2)
        · exact Or.inl (by simpa using hj2)
      · exact ((List.perm_append_singleton i s.queue).nodup_iff).mpr
          (List.nodup_cons.mpr ⟨hi_q, h.queue_nodup⟩)
      · exact fun j hj => hj
    · intro j hj
      rcases List.mem_append.mp hj with hj2 | hj2
      · exact Or.inr (List.mem_append_left _ hj2)
      · exact Or.inl (by simpa using hj2)
  cases hr : s.running with
  | none =>
    have heq : handleArrival s i = ⟨s.table, s.queue, some i⟩ := by
      simp only [handleArrival, hr]
    rw [heq]
    exact hNew
  | some r =>
    have hr_act : r ∈ activeL s := h.run_mem_active r hr
    have hir : i ≠ r := fun hceq => hi_act (hceq ▸ hr_act)
    have hr_q : r ∉ s.queue := h.run_not_mem r hr
    by_cases hp : (getP s.table i).priority > (getP s.table r).priority
    · have hBB : MidInv tbl0 t
          ⟨(enqueue s.table s.queue r).1, (enqueue s.table s.queue r).2, some i⟩ ∧
          ∀ j ∈ ((enqueue s.table s.queue r).2 ++ (some i : Option Nat).toList),
            j = i ∨ j ∈ activeL s := by
        constructor
        · apply midInv_enq tbl0 t s h r i (enqueue s.table s.queue r).2 (some i)
          · exact h.act_lt r hr_act
          · exact h.act_arr r hr_act
          · intro _
            exact ⟨hi_lt, hi_bound⟩
          · intro j hj
            rcases List.mem_append.mp hj with hj2 | hj2
            · rcases (mem_enqueue_snd s.table s.queue r j).mp hj2 with rfl | hj3
              · exact Or.inl rfl
              · exact Or.inr (Or.inr (List.mem_append_left _ hj3))
            · exact Or.inr (Or.inl (by simpa using hj2))
          · have hndE : (enqueue s.table s.queue r).2.Nodup :=
              nodup_enqueue_snd s.table s.queue r hr_q h.queue_nodup
            have hiE : i ∉ (enqueue s.table s.queue r).2 := by
              intro hm
              rcases (mem_enqueue_snd s.table s.queue r i).mp hm with hceq | hm2
              · exact hir hceq
              · exact hi_q hm2
            exact ((List.perm_append_singleton i _).nodup_iff).mpr
              (List.nodup_cons.mpr ⟨hiE, hndE⟩)
          · intro j hj
            exact (mem_enqueue_snd s.table s.queue r j).mp hj
        · intro j hj
          rcases List.mem_append.mp hj with hj2 | hj2
          · rcases (mem_enqueue_snd s.table s.queue r j).mp hj2 with rfl | hj3
            · exact Or.inr hr_act
            · exact Or.inr (List.mem_append_left _ hj3)
          · exact Or.inl (by simpa using hj2)
      by_cases hquant : (getP s.table r).quantum = 0 ∨ (getP s.table r).quantum = 10
      · by_cases htl : (getP s.table r).timeLeft ≤ 0
        · have heq : handleArrival s i = ⟨s.table, s.queue, some i⟩ := by
            simp only [handleArrival, hr]
            rw [if_pos hp, if_pos hquant, preemptBranchA, if_pos htl]
          rw [heq]
          exact hNew
        · have heq : handleArrival s i =
              ⟨(enqueue s.table s.queue r).1, (enqueue s.table s.queue r).2, some i⟩ := by
            simp only [handleArrival, hr]
            rw [if_pos hp, if_pos hquant, preemptBranchA, if_neg htl]
          rw [heq]
          exact hBB
      · have heq : handleArrival s i =
            ⟨(enqueue s.table s.queue r).1, (enqueue s.table s.queue r).2, some i⟩ := by
          simp only [handleArrival, hr]
          rw [if_pos hp, if_neg hquant, preemptBranchB]
        rw [heq]
        exact hBB
    · have heq : handleArrival s i =
          ⟨(enqueue s.table s.queue i).1, (enqueue s.table s.queue i).2, some r⟩ := by
        simp only [handleArrival, hr]
        rw [if_neg hp]
      rw [heq]
      constructor
      · apply midInv_enq tbl0 t s h i r (enqueue s.table s.queue i).2 (some r)
        · exact hi_lt
        · exact hi_bound
        · intro _
          exact ⟨h.act_lt r hr_act, h.act_arr r hr_act⟩
        · intro j hj
          rcases List.mem_append.mp hj with hj2 | hj2
          · rcases (mem_enqueue_snd s.table s.queue i j).mp hj2 with rfl | hj3
            · exact Or.inl rfl
            · exact Or.inr (Or.inr (List.mem_append_left _ hj3))
          · exact Or.inr (Or.inl (by simpa using hj2))
        · have hndE : (enqueue s.table s.queue i).2.Nodup :=
            nodup_enqueue_snd s.table s.queue i hi_q h.queue_nodup
          have hrE : r ∉ (enqueue s.table s.queue i).2 := by
            intro hm
            rcases (mem_enqueue_snd s.table s.queue i r).mp hm with hceq | hm2
            · exact hir hceq.symm
            · exact hr_q hm2
          exact ((List.perm_append_singleton r _).nodup_iff).mpr
            (List.nodup_cons.mpr ⟨hrE, hndE⟩)
        · intro j hj
          exact (mem_enqueue_snd s.table s.queue i j).mp hj
      · intro j hj
        rcases List.mem_append.mp hj with hj2 | hj2
        · rcases (mem_enqueue_snd s.table s.queue i j).mp hj2 with rfl | hj3
          · exact Or.inl rfl
          · exact Or.inr (List.mem_append_left _ hj3)
        · have hjr : j = r := by simpa using hj2
          rw [hjr]
          exact Or.inr hr_act

theorem scan_fold_inv (tbl0 : List Proc) (t : Int) (ht : 0 ≤ t) :
    ∀ (js : List Nat) (s : SchedState) (b : Bool),
      js.Nodup → (∀ j ∈ js, j < tbl0.length) →
      MidInv tbl0 t s → ScanP t js s →
      MidInv tbl0 t (js.foldl (scanStep t) (s, b)).1 := by
  intro js
  induction js with
  | nil =>
    intro s b _ _ hmid _
    exact hmid
  | cons i rest ih =>
    intro s b hnd hjs hmid hscan
    rw [List.foldl_cons]
    by_cases ha : (getP s.table i).arrival = t
    · have hstep : scanStep t (s, b) i = (handleArrival s i, true) := by
        rw [scanStep, if_pos ha]
      rw [hstep]
      have hi_act : i ∉ activeL s :=
        fun hmem => hscan i hmem ha (List.mem_cons_self i rest)
      obtain ⟨hmid2, hsub⟩ := handleArrival_inv tbl0 t s i hmid hi_act
        (hjs i (List.mem_cons_self i rest)) ha ht
      apply ih _ true (List.Nodup.of_cons hnd)
        (fun j hj => hjs j (List.mem_cons_of_mem i hj)) hmid2
      intro j hj harr
      rcases hsub j hj with rfl | hjold
      · exact (List.nodup_cons.mp hnd).1
      · have harr_old : (getP s.table j).arrival = t :=
          (hmid.arr_stable j).trans ((hmid2.arr_stable j).symm.trans harr)
        exact fun hrest => hscan j hjold harr_old (List.mem_cons_of_mem i hrest)
    · have hstep : scanStep t (s, b) i = (s, b) := by
        rw [scanStep, if_neg ha]
      rw [hstep]
      apply ih _ b (List.Nodup.of_cons hnd)
        (fun j hj => hjs j (List.mem_cons_of_mem i hj)) hmid
      intro j hj harr
      exact fun hrest => hscan j hj harr (List.mem_cons_of_mem i hrest)

theorem scanArrivals_inv (tbl0 : List Proc) (t : Int) (s : SchedState)
    (h : MidInv tbl0 (t - 1) s) (ht : 0 ≤ t) :
    MidInv tbl0 t (scanArrivals s t).1 := by
  rw [scanArrivals, h.len_eq]
  apply scan_fold_inv tbl0 t ht _ s false (List.nodup_range _)
    (fun j hj => List.mem_range.mp hj) (h.mono (by omega))
  intro j hj harr
  have hle := (h.act_arr j hj).2
  exfalso
  omega

theorem stepProcesses_inv (tbl0 : List Proc) (t : Int) (s : SchedState)
    (h : MidInv tbl0 t s) : MidInv tbl0 t (stepProcesses s) where
  len_eq := (stepProcesses_length s).trans h.len_eq
  act_lt := fun i hi => h.act_lt i (by rwa [activeL_stepProcesses] at hi)
  act_arr := fun i hi => by
    rw [stepProcesses_arrival]
    exact h.act_arr i (by rwa [activeL_stepProcesses] at hi)
  nodup := by
    rw [activeL_stepProcesses]
    exact h.nodup
  fresh := fun i hl hc => by
    obtain ⟨hu, hn⟩ := h.fresh i hl hc
    refine ⟨?_, ?_⟩
    · rw [stepProcesses_not_active s i hn]
      exact hu
    · rwa [activeL_stepProcesses]
  qbound := fun i hi => by
    have hiq : i ∈ s.queue := by rwa [stepProcesses_queue] at hi
    have hrn : s.running ≠ some i := fun hc => h.run_not_mem i hc hiq
    rw [stepProcesses_quantum_ne s i hrn]
    exact h.qbound i hiq
  qnonneg := fun m => by
    rcases stepProcesses_quantum_cases s m with hq | hq <;> rw [hq]
    · exact h.qnonneg m
    · have := h.qnonneg m
      omega
  arr_stable := fun m => by
    rw [stepProcesses_arrival]
    exact h.arr_stable m

theorem tick_inv (tbl0 : List Proc) (t : Int) (s : SchedState)
    (h : MidInv tbl0 (t - 1) s) (ht : 0 ≤ t) : MidInv tbl0 t (tick s t) := by
  rw [tick]
  apply stepProcesses_inv
  have h1 := scanArrivals_inv tbl0 t s h ht
  split
  · exact h1
  · exact quantumCheck_inv tbl0 t _ h1

theorem getP_initState (inputs : List (Int × Int × Int)) (m : Nat) :
    (getP (initState inputs).table m).quantum = 0 ∧
    (getP (initState inputs).table m).turnaround = 0 ∧
    (getP (initState inputs).table m).wait = 0 := by
  induction inputs generalizing m with
  | nil => exact ⟨rfl, rfl, rfl⟩
  | cons x t ih =>
    cases m with
    | zero => exact ⟨rfl, rfl, rfl⟩
    | succ m => exact ih m

theorem simFrom_inv (inputs : List (Int × Int × Int)) (k : Nat) :
    MidInv (initState inputs).table (Int.ofNat k - 1) (simFrom inputs k) := by
  induction k with
  | zero =>
    refine ⟨rfl, ?_, ?_, ?_, ?_, ?_, ?_, ?_⟩
    · intro i hi
      exact absurd hi (by simp [activeL, simFrom, initState])
    · intro i hi
      exact absurd hi (by simp [activeL, simFrom, initState])
    · simp [activeL, simFrom, initState]
    · intro i _ _
      exact ⟨rfl, by simp [activeL, simFrom, initState]⟩
    · intro i hi
      exact absurd hi (by simp [simFrom, initState])
    · intro m
      exact le_of_eq (getP_initState inputs m).1.symm
    · intro m
      rfl
  | succ k ih =>
    have heq : Int.ofNat (k + 1) - 1 = Int.ofNat k := by
      simp only [Int.ofNat_eq_natCast]
      omega
    rw [heq]
    exact tick_inv (initState inputs).table (Int.ofNat k)
      (simFrom inputs k) ih (Int.ofNat_nonneg k)

theorem walkIns_quantum_ne (tbl : List Proc) (node : Proc) (n : Nat)
    (h : node.quantum ≠ 0) (l : List Nat) : walkIns tbl node n l = n :: l := by
  cases l with
  | nil => rfl
  | cons h2 t2 =>
    simp only [walkIns]
    rw [if_neg]
    intro hc
    exact h hc.2

set_option maxRecDepth 100000

/-- C1: the claim that in every reachable simulation state the ready queue
is sorted by non-increasing priority is FALSE of the code.  With four
processes of priorities 6, 5, 4, 3 arriving at ticks 0, 1, 2, 3, the
arrival of the priority-3 process is spliced right after the head because
the insertion walk advances on `<=` instead of `>=`, and after tick 3 the
queue holds priorities 5, 3, 4. -/
theorem c1_queue_not_sorted : ¬ queueSorted (simFrom input4 4) := by
  simp only [queueSorted]
  decide

/-- C2: the claim that an arriving higher-priority process always makes a
finished (`timeLeft <= 0`) running process be discarded, regardless of its
quantum, is FALSE of the code: the `timeLeft` test only runs when the
quantum is 0 or 10.  With `inputAB`, process 0 finishes at tick 4 with
quantum 5; when the higher-priority process 1 arrives at tick 5, process 0
is re-enqueued (the queue after tick 5 is `[0]`) instead of discarded. -/
theorem c2_finished_not_discarded :
    (getP (simFrom inputAB 5).table 0).timeLeft = 0 ∧
    (simFrom inputAB 5).running = some 0 ∧
    (getP (simFrom inputAB 5).table 0).quantum = 5 ∧
    (getP (simFrom inputAB 5).table 1).arrival = 5 ∧
    (getP (simFrom inputAB 5).table 0).priority <
      (getP (simFrom inputAB 5).table 1).priority ∧
    (simFrom inputAB 6).running = some 1 ∧
    (simFrom inputAB 6).queue = [0] := by decide

/-- C3 counterexample: the claim quantifies over every process inserted
with `quantum != 0`, but a process inserted with `quantum = 10` is
normalized to 0 by `enqueue` and goes to the BACK of its priority class:
in `tblC3`, inserting node 1 (priority 3, quantum 10) into the queue
`[0]` (priority 3) yields `[0, 1]`, so the inserted node neither precedes
its equal-priority peer nor becomes the head even though its class is the
highest present. -/
theorem c3_counterexample :
    (getP tblC3 1).quantum ≠ 0 ∧
    (∀ j ∈ [0], (getP tblC3 j).priority ≤ (getP tblC3 1).priority) ∧
    (enqueue tblC3 [0] 1).2 = [0, 1] ∧
    (enqueue tblC3 [0] 1).2.head? ≠ some 1 := by decide

/-- C3 (amended): for every process inserted with `0 < quantum < Q` (a
mid-slice preemption, not normalized by `enqueue`), the result is the old
queue with the node spliced in behind a (possibly empty) initial run of
strictly higher-priority entries: hence the node precedes every other
queued process of equal priority, and if no queued entry has strictly
higher priority the node becomes the new head. -/
theorem c3_preempted_front (tbl : List Proc) (qu : List Nat) (n : Nat)
    (h1 : (getP tbl n).quantum ≠ 0) (h2 : (getP tbl n).quantum < Q) :
    (∃ pre post, (enqueue tbl qu n).2 = pre ++ n :: post ∧ qu = pre ++ post ∧
      ∀ j ∈ pre, (getP tbl n).priority < (getP tbl j).priority) ∧
    ((∀ j ∈ qu, (getP tbl j).priority ≤ (getP tbl n).priority) →
      (enqueue tbl qu n).2.head? = some n) := by
  have hnotge : ¬ (getP tbl n).quantum ≥ Q := not_le.mpr h2
  have htbl : (enqueue tbl qu n).1 = tbl := by
    rw [enqueue_fst, if_neg hnotge]
  have hsnd : (enqueue tbl qu n).2 = enqueueQ tbl (getP tbl n) n qu := by
    rw [enqueue_snd, htbl]
  rw [hsnd]
  cases qu with
  | nil => exact ⟨⟨[], [], rfl, rfl, by simp⟩, fun _ => rfl⟩
  | cons h t =>
    by_cases hgt : (getP tbl n).priority > (getP tbl h).priority
    · simp only [enqueueQ]
      rw [if_pos hgt]
      exact ⟨⟨[], h :: t, rfl, rfl, by simp⟩, fun _ => rfl⟩
    · by_cases hpe : (getP tbl n).priority = (getP tbl h).priority
      · simp only [enqueueQ]
        rw [if_neg hgt, if_pos hpe, if_pos h1]
        exact ⟨⟨[], h :: t, rfl, rfl, by simp⟩, fun _ => rfl⟩
      · have hlt : (getP tbl n).priority < (getP tbl h).priority := by
          rcases lt_trichotomy ((getP tbl n).priority) ((getP tbl h).priority)
            with hc | hc | hc
          · exact hc
          · exact absurd hc hpe
          · exact absurd hc hgt
        simp only [enqueueQ]
        rw [if_neg hgt, if_neg hpe, walkIns_quantum_ne tbl (getP tbl n) n h1 t]
        refine ⟨⟨[h], t, rfl, rfl, ?_⟩, ?_⟩
        · intro j hj
          have hjh : j = h := by simpa using hj
          rw [hjh]
          exact hlt
        · intro hall
          exact absurd (hall h (List.mem_cons_self h t)) (not_le.mpr hlt)

/-- C3 witness: a concrete mid-slice preempted insertion (priority 3,
quantum 2) into a queue headed by an equal-priority node becomes the new
head. -/
theorem c3_preempted_front_witness :
    ((getP tblC3W 1).quantum ≠ 0 ∧ (getP tblC3W 1).quantum < Q) ∧
    ((∃ pre post, (enqueue tblC3W [0] 1).2 = pre ++ 1 :: post ∧
        [0] = pre ++ post ∧
        ∀ j ∈ pre, (getP tblC3W 1).priority < (getP tblC3W j).priority) ∧
      ((∀ j ∈ [0], (getP tblC3W j).priority ≤ (getP tblC3W 1).priority) →
        (enqueue tblC3W [0] 1).2.head? = some 1)) :=
  ⟨⟨by decide, by decide⟩,
    c3_preempted_front tblC3W [0] 1 (by decide) (by decide)⟩

/-- C4: the claim that a process inserted with `quantum == 0` is placed
immediately before the first entry of strictly lower priority (after
every entry of equal or higher priority) is FALSE of the code: inserting
the priority-3 node 2 into the queue `[0, 1]` (priorities 5, 4) yields
`[0, 2, 1]`, placing it BEFORE the strictly higher-priority node 1,
because the insertion walk stops as soon as the next priority exceeds the
node instead of walking past higher priorities. -/
theorem c4_fresh_insert_misplaced :
    (getP tblC4 2).quantum = 0 ∧
    (enqueue tblC4 [0, 1] 2).2 = [0, 2, 1] ∧
    (getP tblC4 2).priority < (getP tblC4 1).priority := by decide

/-- C5: the claim that `timeLeft` is never negative in a reachable state
is FALSE of the code: in `inputAB` the finished process 0 is wrongly
re-enqueued at tick 5 (see C2), is dispatched again when process 1
finishes at tick 25, and its `timeLeft` is decremented to -1 by tick 26.
(The `wait`, `turnaround` and `timeLeft` monotonicity parts of the claim
are not at issue; the non-negativity part fails.) -/
theorem c5_remaining_goes_negative :
    (getP (simFrom inputAB 25).table 0).timeLeft = 0 ∧
    (getP (simFrom inputAB 26).table 0).timeLeft = -1 := by decide

/-- C6: the claim that a process whose `timeLeft` reached 0 never
reappears in the ready queue or the running slot is FALSE of the code:
in `inputAB` process 0 finishes at tick 4 (timeLeft 0 after tick 5 scan),
yet it sits in the ready queue after tick 5 and occupies the running slot
after tick 25. -/
theorem c6_terminated_reappears :
    (getP (simFrom inputAB 5).table 0).timeLeft = 0 ∧
    0 ∈ (simFrom inputAB 6).queue ∧
    (simFrom inputAB 26).running = some 0 := by decide

/-- C7 counterexample: the claim that `quantum` is in `[0, Q]` in every
reachable state is FALSE of the code: in `inputQ` the running process 0
has `quantum = 10` exactly when process 1 arrives at tick 10, so
`quantumCheck` is skipped and `stepProcesses` pushes its quantum to 11. -/
theorem c7_counterexample :
    (simFrom inputQ 11).running = some 0 ∧
    (getP (simFrom inputQ 11).table 0).quantum = 11 := by decide

/-- C7 (amended): in every reachable state, every process in the READY
QUEUE has `quantum` in `[0, Q)`, and `enqueue` resets the quantum of the
inserted node to 0 whenever it is `>= Q`; only the running process can
exceed `Q` (when arrivals defer the quantum check). -/
theorem c7_queued_quantum_bounded :
    (∀ (inputs : List (Int × Int × Int)) (k i : Nat),
      i ∈ (simFrom inputs k).queue →
      0 ≤ (getP (simFrom inputs k).table i).quantum ∧
        (getP (simFrom inputs k).table i).quantum < Q) ∧
    (∀ (tbl : List Proc) (qu : List Nat) (n : Nat), n < tbl.length →
      Q ≤ (getP tbl n).quantum → (getP (enqueue tbl qu n).1 n).quantum = 0) := by
  constructor
  · intro inputs k i hi
    exact (simFrom_inv inputs k).qbound i hi
  · intro tbl qu n hn hq
    rw [getP_enqueue_fst, if_pos ⟨rfl, hn, hq⟩]

/-- C7 witness: in `inputQ` after tick 10 the queue holds node 1 with
quantum 0, and enqueueing node 1 of `tblC3` (quantum 10) resets its
quantum to 0. -/
theorem c7_queued_quantum_bounded_witness :
    (1 ∈ (simFrom inputQ 11).queue ∧
      (0 ≤ (getP (simFrom inputQ 11).table 1).quantum ∧
        (getP (simFrom inputQ 11).table 1).quantum < Q)) ∧
    ((1 : Nat) < tblC3.length ∧ Q ≤ (getP tblC3 1).quantum ∧
      (getP (enqueue tblC3 [0] 1).1 1).quantum = 0) :=
  ⟨⟨by decide, c7_queued_quantum_bounded.1 inputQ 11 1 (by decide)⟩,
    ⟨by decide, by decide,
      c7_queued_quantum_bounded.2 tblC3 [0] 1 (by decide) (by decide)⟩⟩

/-- C8: in every reachable state (after any number of ticks, for any
input), the running process is never simultaneously in the ready queue. -/
theorem c8_single_occupancy (inputs : List (Int × Int × Int)) (k r : Nat)
    (h : (simFrom inputs k).running = some r) :
    r ∉ (simFrom inputs k).queue :=
  (simFrom_inv inputs k).run_not_mem r h

/-- C8 witness: with a single process, after tick 0 it is running and the
(empty) queue does not contain it. -/
theorem c8_single_occupancy_witness :
    (simFrom inputLate2 1).running = some 0 ∧
    0 ∉ (simFrom inputLate2 1).queue :=
  ⟨by decide, c8_single_occupancy inputLate2 1 0 (by decide)⟩

/-- C9 counterexample: the two preemption branches are NOT equal as state
transformers: on `stateC9` (running node finished, `timeLeft = 0`) the
branch guarded by `quantum == 0 || quantum == 10` discards the running
node while the other branch re-enqueues it. -/
theorem c9_counterexample :
    preemptBranchA stateC9 0 1 ≠ preemptBranchB stateC9 0 1 := by decide

/-- C9 (amended): whenever the running node still has positive remaining
time, the two preemption branches of the arrival handler produce
identical transitions of the running slot and the ready queue (they
differ only by the printed context-switch message). -/
theorem c9_branches_agree (s : SchedState) (r i : Nat)
    (h : 0 < (getP s.table r).timeLeft) :
    preemptBranchA s r i = preemptBranchB s r i := by
  rw [preemptBranchA, if_neg (not_le.mpr h)]
  rfl

/-- C9 witness: the two branches agree on a state whose running node has
timeLeft 3. -/
theorem c9_branches_agree_witness :
    0 < (getP stateC9pos.table 0).timeLeft ∧
    preemptBranchA stateC9pos 0 1 = preemptBranchB stateC9pos 0 1 :=
  ⟨by decide, c9_branches_agree stateC9pos 0 1 (by decide)⟩

/-- C10: a process whose arrival tick is outside `[0, N)` never enters
the ready queue and never occupies the running slot during the
simulation, and its reported final turnaround and wait are both 0. -/
theorem c10_out_of_horizon (inputs : List (Int × Int × Int)) (i : Nat)
    (hlen : i < (initState inputs).table.length)
    (harr : (getP (initState inputs).table i).arrival < 0 ∨
      96 ≤ (getP (initState inputs).table i).arrival) :
    (∀ k : Nat, k ≤ N → i ∉ (simFrom inputs k).queue ∧
      (simFrom inputs k).running ≠ some i) ∧
    (getP (simulate inputs).table i).turnaround = 0 ∧
    (getP (simulate inputs).table i).wait = 0 := by
  have key : ∀ k : Nat, k ≤ N →
      getP (simFrom inputs k).table i = getP (initState inputs).table i ∧
        i ∉ activeL (simFrom inputs k) := by
    intro k hk
    apply (simFrom_inv inputs k).fresh i hlen
    rcases harr with h | h
    · exact Or.inl h
    · right
      have hk96 : Int.ofNat k ≤ 96 := by
        simp only [Int.ofNat_eq_natCast]
        exact_mod_cast hk
      omega
  constructor
  · intro k hk
    obtain ⟨-, hna⟩ := key k hk
    constructor
    · exact fun hm => hna (List.mem_append_left _ hm)
    · intro hrun
      apply hna
      have hact : activeL (simFrom inputs k) = (simFrom inputs k).queue ++ [i] := by
        rw [activeL, hrun]
        rfl
      rw [hact]
      exact List.mem_append_right _ (List.mem_singleton_self i)
  · have huntouched := (key N (le_refl N)).1
    rw [simulate, huntouched]
    exact ⟨(getP_initState inputs i).2.1, (getP_initState inputs i).2.2⟩

/-- C10 witness: the single process of `inputLate` arrives at tick 100,
outside the horizon; it never runs or queues and reports turnaround and
wait 0. -/
theorem c10_out_of_horizon_witness :
    ((0 : Nat) < (initState inputLate).table.length ∧
      96 ≤ (getP (initState inputLate).table 0).arrival) ∧
    ((∀ k : Nat, k ≤ N → 0 ∉ (simFrom inputLate k).queue ∧
        (simFrom inputLate k).running ≠ some 0) ∧
      (getP (simulate inputLate).table 0).turnaround = 0 ∧
      (getP (simulate inputLate).table 0).wait = 0) :=
  ⟨⟨by decide, by decide⟩,
    c10_out_of_horizon inputLate 0 (by decide) (Or.inr (by decide))⟩

end Scheduling
